import Mathlib

/-!
Verification of the chunking / embedding-preparation pipeline of
KVEC-Systems/kvec-mobile-triage.

The Python sources are shallowly embedded over `List Char` (texts) and `ℚ`/`ℝ`
(numeric data).  Machine-level floating point is modelled by exact real
arithmetic; Python's `while` loop in `chunk_text` is modelled with explicit
fuel, `none` marking a run that did not finish within the given fuel.
-/

namespace KVec

/-- Python whitespace test used by `str.strip`: the ASCII whitespace
characters plus the other code points Python treats as whitespace — the
C0 separators U+001C-U+001F, NEL (U+0085), NBSP (U+00A0), Ogham space mark
(U+1680), the U+2000-U+200A spaces, line/paragraph separators
(U+2028/U+2029), narrow NBSP (U+202F), medium mathematical space (U+205F)
and the ideographic space (U+3000). -/
def pyIsSpace (c : Char) : Bool :=
  c == ' ' || c == '\t' || c == '\n' || c == '\r' || c == '\x0b' || c == '\x0c' ||
  c == '\x1c' || c == '\x1d' || c == '\x1e' || c == '\x1f' ||
  c == '\x85' || c == '\xa0' || c == '\u1680' ||
  c == '\u2000' || c == '\u2001' || c == '\u2002' || c == '\u2003' ||
  c == '\u2004' || c == '\u2005' || c == '\u2006' || c == '\u2007' ||
  c == '\u2008' || c == '\u2009' || c == '\u200A' ||
  c == '\u2028' || c == '\u2029' || c == '\u202F' || c == '\u205F' ||
  c == '\u3000'

/-- Remove leading whitespace. -/
def stripLeft (l : List Char) : List Char := l.dropWhile pyIsSpace

/-- Remove trailing whitespace. -/
def stripRight (l : List Char) : List Char := (l.reverse.dropWhile pyIsSpace).reverse

/-- Python `str.strip()`. -/
def pystrip (l : List Char) : List Char := stripRight (stripLeft l)

/-- Resolve a (possibly negative) Python index against a length `n`. -/
def pyIdx (n : Nat) (i : Int) : Nat :=
  if i < 0 then ((n : Int) + i).toNat else min i.toNat n

/-- Python slice `l[a:b]` (step 1), including negative-index handling. -/
def pyslice (l : List α) (a b : Int) : List α :=
  (l.take (pyIdx l.length b)).drop (pyIdx l.length a)

/-- Does `pat` occur at the start of `l`? -/
def beginsWith : List Char → List Char → Bool
  | [], _ => true
  | _ :: _, [] => false
  | p :: ps, c :: rest => p == c && beginsWith ps rest

/-- Helper for `rfind`: scan candidate start positions from high to low. -/
def rfindGo (l pat : List Char) : Nat → Int
  | 0 => -1
  | n + 1 => if beginsWith pat (l.drop n) then (n : Int) else rfindGo l pat n

/-- Python `str.rfind`: highest index at which `pat` occurs in `l`, `-1` if
it does not occur. -/
def rfind (l pat : List Char) : Int := rfindGo l pat (l.length + 1)

/-- One iteration of the sliding-window loop of `chunk_text`
(`src/scripts/build_vector_db.py`, lines 64-78): the chunk cut out for the
window starting at `s`, together with the (possibly boundary-snapped) window
end. -/
def chunkStep (text : List Char) (cs : Nat) (s : Int) : List Char × Int :=
  let e : Int := s + (cs : Int)
  let chunk := pyslice text s e
  if e < (text.length : Int) then
    let lp := rfind chunk ['.', ' ']
    if ((cs / 2 : Nat) : Int) < lp then
      (pyslice chunk 0 (lp + 1), s + lp + 1)
    else (chunk, e)
  else (chunk, e)

/-- The `while start < len(text)` loop of `chunk_text`, with explicit fuel.
`none` means the loop did not finish within `fuel` iterations. -/
def chunkLoop (text : List Char) (cs ov : Nat) :
    Nat → Int → List (List Char) → Option (List (List Char))
  | 0, s, acc => if s < (text.length : Int) then none else some acc
  | fuel + 1, s, acc =>
    if s < (text.length : Int) then
      let p := chunkStep text cs s
      chunkLoop text cs ov fuel (p.2 - (ov : Int)) (acc ++ [pystrip p.1])
    else some acc

/-- `chunk_text` from `src/scripts/build_vector_db.py`.  The loop is run with
`text.length` units of fuel, which is enough whenever the loop makes progress
of at least one position per iteration. -/
def chunk_text (text : List Char) (cs ov : Nat) : Option (List (List Char)) :=
  if text.length ≤ cs then some [text] else chunkLoop text cs ov text.length 0 []

/-- The sliding-window loop of `chunk_text` terminates from its initial
state. -/
def chunkTerminates (text : List Char) (cs ov : Nat) : Prop :=
  ∃ fuel, (chunkLoop text cs ov fuel 0 []).isSome

/-- `CHUNK_SIZE` from `src/scripts/build_vector_db.py`. -/
def CHUNK_SIZE : Nat := 400

/-- `CHUNK_OVERLAP` from `src/scripts/build_vector_db.py`. -/
def CHUNK_OVERLAP : Nat := 50

/-- `ALLOWED_SOURCES` from `src/scripts/build_vector_db.py`. -/
def ALLOWED_SOURCES : List (List Char) :=
  ["who".toList, "cdc".toList, "nice".toList, "icrc".toList]

/-- A raw dataset row as consumed by `load_guidelines`; `none` models an
absent field (Python `row.get` returning its default). -/
structure Row where
  source : Option (List Char)
  clean_text : Option (List Char)
  raw_text : Option (List Char)
  id : Option (List Char)
  title : Option (List Char)
  url : Option (List Char)
deriving DecidableEq

/-- An admitted guideline record, as appended by `load_guidelines`. -/
structure Doc where
  id : List Char
  title : List Char
  source : List Char
  text : List Char
  url : List Char
deriving DecidableEq

/-- `row.get("source", "").lower()`. -/
def effSource (r : Row) : List Char := (r.source.getD []).map Char.toLower

/-- `row.get("clean_text") or row.get("raw_text", "")` (Python `or` falls
through on an absent or empty primary field). -/
def effText (r : Row) : List Char :=
  match r.clean_text with
  | some t => if t = [] then r.raw_text.getD [] else t
  | none => r.raw_text.getD []

/-- The record appended for an admitted row in `load_guidelines`. -/
def mkDoc (r : Row) : Doc :=
  { id := r.id.getD []
    title := r.title.getD ("Untitled".toList)
    source := effSource r
    text := effText r
    url := r.url.getD [] }

/-- The filtering loop of `load_guidelines` (`src/scripts/build_vector_db.py`,
lines 40-56), over an abstract list of dataset rows. -/
def load_guidelines (rows : List Row) : List Doc :=
  rows.foldl
    (fun acc r =>
      if effSource r ∈ ALLOWED_SOURCES then
        if 100 < (effText r).length then acc ++ [mkDoc r] else acc
      else acc)
    []

/-- A chunk record assembled by `main` (`src/scripts/build_vector_db.py`,
lines 197-213), before the embedding is attached. -/
structure Protocol where
  id : List Char
  title : List Char
  source : List Char
  text : List Char
  url : List Char
deriving DecidableEq

/-- Decimal digit to its character. -/
def digitChar : Nat → Char
  | 0 => '0' | 1 => '1' | 2 => '2' | 3 => '3' | 4 => '4'
  | 5 => '5' | 6 => '6' | 7 => '7' | 8 => '8' | 9 => '9'
  | _ => '*'

/-- Little-endian base-10 digits of `n`, with explicit fuel (any fuel of at
least `n` gives the true digit list). -/
def natDigitsAux : Nat → Nat → List Nat
  | 0, _ => []
  | fuel + 1, n => if n = 0 then [] else (n % 10) :: natDigitsAux fuel (n / 10)

/-- Little-endian base-10 digits of `n`. -/
def natDigits (n : Nat) : List Nat := natDigitsAux n n

/-- Decimal representation of a natural number, as Python `str(i)`. -/
def natRepr (n : Nat) : List Char :=
  if n = 0 then ['0'] else ((natDigits n).map digitChar).reverse

/-- The f-string `f"{guideline['source']}_{guideline['id']}_chunk_{i}"`. -/
def mkChunkId (source id : List Char) (i : Nat) : List Char :=
  source ++ '_' :: id ++ "_chunk_".toList ++ natRepr i

/-- The chunk records produced by `main` for one admitted guideline. -/
def perDoc (g : Doc) : List Protocol :=
  match chunk_text g.text CHUNK_SIZE CHUNK_OVERLAP with
  | some cks =>
    cks.enum.map fun ic =>
      { id := mkChunkId g.source g.id ic.1
        title := g.title
        source := g.source
        text := ic.2
        url := g.url }
  | none => []

/-- The chunk-assembly loop of `main` (`src/scripts/build_vector_db.py`,
lines 197-213). -/
def mainProtocols (gs : List Doc) : List Protocol :=
  gs.foldl
    (fun acc g =>
      match chunk_text g.text CHUNK_SIZE CHUNK_OVERLAP with
      | some cks =>
        acc ++ (cks.enum.map fun ic =>
          { id := mkChunkId g.source g.id ic.1
            title := g.title
            source := g.source
            text := ic.2
            url := g.url })
      | none => acc)
    []

/-- The write section of `main` (`src/scripts/build_vector_db.py`, lines
216-236): each protocol is paired with the embedding of the same index and
the result is dumped as-is.  `none` models the `IndexError` raised when there
are fewer embeddings than protocols; no other check is performed. -/
def writeCollection (ps : List Protocol) (es : List (List ℚ)) :
    Option (List (Protocol × List ℚ)) :=
  if es.length < ps.length then none else some (ps.zip es)

/-- Sum of squares of a vector. -/
def sumSq (v : List ℝ) : ℝ := (v.map fun x => x ^ 2).sum

/-- Euclidean norm, as computed by `outputs.norm(dim=-1)`. -/
noncomputable def norm2 (v : List ℝ) : ℝ := Real.sqrt (sumSq v)

/-- The normalization step of `generate_embeddings`
(`src/scripts/build_vector_db.py`, line 165):
`outputs / outputs.norm(dim=-1, keepdim=True)`, one vector at a time. -/
noncomputable def l2_normalize (v : List ℝ) : List ℝ :=
  v.map fun x => x / norm2 v

/-- Modelled from the spec: `normalize(vector) = vector / max(‖vector‖₂, ε)`
with `ε` a small positive constant (spec §4.4); this exact formula does not
appear in the source, which divides by the norm directly. -/
noncomputable def specNormalize (ε : ℝ) (v : List ℝ) : List ℝ :=
  v.map fun x => x / max (norm2 v) ε

/-- Result of a triage classifier in `src/evaluation/evaluate.py`. -/
structure TriageResult where
  specialty : List Char
  confidence : ℚ
deriving DecidableEq

/-- Python `w in s` substring test. -/
def containsSub (s w : List Char) : Bool :=
  (List.range (s.length + 1)).any fun i => beginsWith w (s.drop i)

/-- `SPECIALTIES` from `src/evaluation/evaluate.py`. -/
def SPECIALTIES : List (List Char) :=
  ["Behavioral Health".toList, "Cardiology".toList, "Dermatology".toList,
   "Gastroenterology".toList, "Neurology".toList, "Oncology".toList,
   "Orthopedic Surgery".toList, "Pain Management".toList,
   "Primary Care".toList, "Pulmonology".toList, "Rheumatology".toList,
   "Sports Medicine".toList, "Urology".toList, "Vascular Medicine".toList,
   "Women's Health".toList]

/-- `run_fallback_triage` from `src/evaluation/evaluate.py` (lines 121-146):
keyword rules tested top to bottom on the lowercased symptom text. -/
def run_fallback_triage (symptom : List Char) : TriageResult :=
  let s := symptom.map Char.toLower
  if containsSub s ("burn".toList) &&
      (containsSub s ("pee".toList) || containsSub s ("urin".toList)) then
    ⟨"Urology".toList, 85 / 100⟩
  else if containsSub s ("chest".toList) &&
      (containsSub s ("eat".toList) || containsSub s ("food".toList) ||
        containsSub s ("meal".toList)) then
    ⟨"Gastroenterology".toList, 82 / 100⟩
  else if [("sad".toList), ("depress".toList), ("anxious".toList),
      ("panic".toList)].any (fun w => containsSub s w) then
    ⟨"Behavioral Health".toList, 80 / 100⟩
  else if [("mole".toList), ("rash".toList), ("skin".toList), ("itch".toList),
      ("acne".toList)].any (fun w => containsSub s w) then
    ⟨"Dermatology".toList, 78 / 100⟩
  else if [("heart".toList), ("chest pain".toList),
      ("palpitation".toList)].any (fun w => containsSub s w) then
    ⟨"Cardiology".toList, 75 / 100⟩
  else if [("headache".toList), ("migraine".toList), ("numbness".toList),
      ("tingling".toList), ("confusion".toList)].any (fun w => containsSub s w) then
    ⟨"Neurology".toList, 75 / 100⟩
  else if [("back pain".toList), ("knee".toList), ("shoulder".toList),
      ("joint".toList)].any (fun w => containsSub s w) then
    ⟨"Orthopedic Surgery".toList, 75 / 100⟩
  else if [("breath".toList), ("cough".toList), ("wheez".toList)].any
      (fun w => containsSub s w) then
    ⟨"Pulmonology".toList, 75 / 100⟩
  else if [("period".toList), ("menstrua".toList), ("pelvic".toList),
      ("hot flash".toList)].any (fun w => containsSub s w) then
    ⟨"Women's Health".toList, 75 / 100⟩
  else if [("swallow".toList), ("stomach".toList), ("diarrhea".toList),
      ("abdominal".toList), ("stool".toList)].any (fun w => containsSub s w) then
    ⟨"Gastroenterology".toList, 75 / 100⟩
  else ⟨"Primary Care".toList, 50 / 100⟩

/-- The keyword rules of `run_fallback_triage` as an ordered list of
(predicate on the lowercased text, result) pairs. -/
def fallbackRules : List ((List Char → Bool) × TriageResult) :=
  [(fun s => containsSub s ("burn".toList) &&
      (containsSub s ("pee".toList) || containsSub s ("urin".toList)),
    ⟨"Urology".toList, 85 / 100⟩),
   (fun s => containsSub s ("chest".toList) &&
      (containsSub s ("eat".toList) || containsSub s ("food".toList) ||
        containsSub s ("meal".toList)),
    ⟨"Gastroenterology".toList, 82 / 100⟩),
   (fun s => [("sad".toList), ("depress".toList), ("anxious".toList),
      ("panic".toList)].any (fun w => containsSub s w),
    ⟨"Behavioral Health".toList, 80 / 100⟩),
   (fun s => [("mole".toList), ("rash".toList), ("skin".toList),
      ("itch".toList), ("acne".toList)].any (fun w => containsSub s w),
    ⟨"Dermatology".toList, 78 / 100⟩),
   (fun s => [("heart".toList), ("chest pain".toList),
      ("palpitation".toList)].any (fun w => containsSub s w),
    ⟨"Cardiology".toList, 75 / 100⟩),
   (fun s => [("headache".toList), ("migraine".toList), ("numbness".toList),
      ("tingling".toList), ("confusion".toList)].any (fun w => containsSub s w),
    ⟨"Neurology".toList, 75 / 100⟩),
   (fun s => [("back pain".toList), ("knee".toList), ("shoulder".toList),
      ("joint".toList)].any (fun w => containsSub s w),
    ⟨"Orthopedic Surgery".toList, 75 / 100⟩),
   (fun s => [("breath".toList), ("cough".toList), ("wheez".toList)].any
      (fun w => containsSub s w),
    ⟨"Pulmonology".toList, 75 / 100⟩),
   (fun s => [("period".toList), ("menstrua".toList), ("pelvic".toList),
      ("hot flash".toList)].any (fun w => containsSub s w),
    ⟨"Women's Health".toList, 75 / 100⟩),
   (fun s => [("swallow".toList), ("stomach".toList), ("diarrhea".toList),
      ("abdominal".toList), ("stool".toList)].any (fun w => containsSub s w),
    ⟨"Gastroenterology".toList, 75 / 100⟩)]

/-- First-match rule semantics: the first rule whose predicate accepts the
lowercased input decides the result; no match falls back to Primary Care at
confidence 0.50. -/
def applyRules (rules : List ((List Char → Bool) × TriageResult))
    (symptom : List Char) : TriageResult :=
  match rules.find? (fun r => r.1 (symptom.map Char.toLower)) with
  | some r => r.2
  | none => ⟨"Primary Care".toList, 50 / 100⟩

/-- The ten specialties reachable from `run_fallback_triage`. -/
def fallbackSpecialties : List (List Char) :=
  ["Urology".toList, "Gastroenterology".toList, "Behavioral Health".toList,
   "Dermatology".toList, "Cardiology".toList, "Neurology".toList,
   "Orthopedic Surgery".toList, "Pulmonology".toList,
   "Women's Health".toList, "Primary Care".toList]

/-- Reference chunk sequence for a whitespace-free text: plain windows of
width `cs` advancing by `d = cs - overlap`. -/
def simpleChunks (text : List Char) (cs d : Nat) (s : Nat) : List (List Char) :=
  if _h : 0 < d ∧ s < text.length then
    ((text.drop s).take cs) :: simpleChunks text cs d (s + d)
  else []
termination_by text.length - s
decreasing_by omega

/-- Chunk `c1` and the chronologically next chunk `c2` share (at least) `m`
characters of text: the last `m` characters of `c1` are the first `m`
characters of `c2`. -/
def sharesAtLeast (c1 c2 : List Char) (m : Nat) : Prop :=
  m ≤ c1.length ∧ m ≤ c2.length ∧ c1.drop (c1.length - m) = c2.take m

instance (c1 c2 : List Char) (m : Nat) : Decidable (sharesAtLeast c1 c2 m) :=
  inferInstanceAs (Decidable (_ ∧ _ ∧ _))

/-- Sample protocol record used in concrete instantiations. -/
def sampleProtocol : Protocol :=
  { id := "x".toList, title := "t".toList, source := "who".toList,
    text := "c".toList, url := "u".toList }

/-- Sample dataset row with a disallowed source tag. -/
def blogRow : Row :=
  { source := some ("blog".toList), clean_text := some (List.replicate 200 'a'),
    raw_text := none, id := some ("b1".toList), title := none, url := none }

/-- Sample dataset row with an allowed source tag and long enough text. -/
def whoRow : Row :=
  { source := some ("WHO".toList), clean_text := some (List.replicate 150 'a'),
    raw_text := none, id := some ("w1".toList), title := none, url := none }

/-- Sample admitted guideline. -/
def docA : Doc :=
  { id := "d1".toList, title := "t".toList, source := "who".toList,
    text := "hello".toList, url := "u".toList }

/-- Second sample admitted guideline, distinct id. -/
def docB : Doc :=
  { id := "d2".toList, title := "t".toList, source := "who".toList,
    text := "world".toList, url := "u".toList }

/-! ### Lemmas about the Python string primitives -/

theorem beginsWith_length : ∀ {pat x : List Char}, beginsWith pat x = true →
    pat.length ≤ x.length := by
  intro pat
  induction pat with
  | nil => intro x _; simp
  | cons p ps ih =>
    intro x h
    cases x with
    | nil => simp [beginsWith] at h
    | cons c rest =>
      simp only [beginsWith, Bool.and_eq_true] at h
      have := ih h.2
      simp only [List.length_cons]
      omega

theorem space_mem_of_beginsWith : ∀ {x : List Char},
    beginsWith ['.', ' '] x = true → ' ' ∈ x := by
  intro x h
  match x with
  | [] => simp [beginsWith] at h
  | [c] => simp [beginsWith] at h
  | c1 :: c2 :: rest =>
    simp only [beginsWith, Bool.and_eq_true, beq_iff_eq] at h
    rw [← h.2.1]
    exact List.mem_cons_of_mem _ (List.mem_cons_self _ _)

theorem rfindGo_spec (l pat : List Char) :
    ∀ n, rfindGo l pat n = -1 ∨
      ∃ k : Nat, rfindGo l pat n = (k : Int) ∧ k < n ∧
        beginsWith pat (l.drop k) = true := by
  intro n
  induction n with
  | zero => left; rfl
  | succ m ih =>
    by_cases h : beginsWith pat (l.drop m) = true
    · right
      exact ⟨m, by simp [rfindGo, h], Nat.lt_succ_self m, h⟩
    · have he : rfindGo l pat (m + 1) = rfindGo l pat m := by
        simp [rfindGo, h]
      rw [he]
      rcases ih with h1 | ⟨k, hk1, hk2, hk3⟩
      · left; exact h1
      · right; exact ⟨k, hk1, Nat.lt_succ_of_lt hk2, hk3⟩

theorem rfind_no_space {chunk : List Char} (h : ' ' ∉ chunk) :
    rfind chunk ['.', ' '] = -1 := by
  rcases rfindGo_spec chunk ['.', ' '] (chunk.length + 1) with h1 | ⟨k, hk1, _, hk3⟩
  · exact h1
  · exact absurd ((List.drop_sublist k chunk).mem (space_mem_of_beginsWith hk3)) h

theorem rfind_bound (l pat : List Char) :
    rfind l pat = -1 ∨
      (0 ≤ rfind l pat ∧ rfind l pat + pat.length ≤ l.length) := by
  rcases rfindGo_spec l pat (l.length + 1) with h1 | ⟨k, hk1, hk2, hk3⟩
  · left; exact h1
  · right
    have hlen := beginsWith_length hk3
    rw [List.length_drop] at hlen
    unfold rfind
    rw [hk1]
    constructor
    · exact Int.ofNat_nonneg k
    · omega

theorem pyslice_nonneg {l : List α} {s : Int} (cs : Nat) (hs : 0 ≤ s) :
    pyslice l s (s + (cs : Int)) = (l.drop s.toNat).take cs := by
  simp only [pyslice, pyIdx, if_neg (not_lt.mpr hs),
    if_neg (by omega : ¬ s + (cs : Int) < 0)]
  rw [List.drop_take]
  by_cases ha : s.toNat ≤ l.length
  · rw [min_eq_left ha]
    by_cases hb : (s + (cs : Int)).toNat ≤ l.length
    · rw [min_eq_left hb]
      congr 1
      omega
    · rw [min_eq_right (le_of_not_le hb)]
      rw [List.take_of_length_le (by rw [List.length_drop] : _ ≤ l.length - s.toNat),
        List.take_of_length_le (by rw [List.length_drop]; omega)]
  · rw [min_eq_right (le_of_not_le ha)]
    rw [List.drop_eq_nil_of_le (le_refl l.length), List.drop_eq_nil_of_le (by omega)]
    simp

theorem pyslice_zero {l : List α} {b : Int} (hb : 0 ≤ b) :
    pyslice l 0 b = l.take b.toNat := by
  simp only [pyslice, pyIdx, if_neg (by omega : ¬ (0 : Int) < 0),
    if_neg (not_lt.mpr hb), Int.toNat_zero]
  rw [Nat.min_eq_left (Nat.zero_le _), List.drop_zero]
  rcases le_total b.toNat l.length with hb' | hb'
  · rw [min_eq_left hb']
  · rw [min_eq_right hb', List.take_of_length_le le_rfl,
      List.take_of_length_le hb']

theorem length_pyslice_le (l : List α) (s : Int) (cs : Nat) :
    (pyslice l s (s + (cs : Int))).length ≤ cs := by
  simp only [pyslice, List.length_drop, List.length_take, pyIdx]
  split <;> split <;> omega

theorem mem_pyslice {l : List α} {a b : Int} {x : α} (h : x ∈ pyslice l a b) :
    x ∈ l :=
  (List.take_sublist _ _).mem ((List.drop_sublist _ _).mem h)

theorem dropWhile_all_false {p : Char → Bool} :
    ∀ {l : List Char}, (∀ c ∈ l, p c = false) → l.dropWhile p = l := by
  intro l h
  cases l with
  | nil => rfl
  | cons c t => simp [List.dropWhile_cons, h c (List.mem_cons_self c t)]

theorem pystrip_eq_self {l : List Char} (h : ∀ c ∈ l, pyIsSpace c = false) :
    pystrip l = l := by
  unfold pystrip stripLeft stripRight
  rw [dropWhile_all_false h, dropWhile_all_false, List.reverse_reverse]
  intro c hc
  exact h c (List.mem_reverse.mp hc)

theorem dropWhile_head_false {p : Char → Bool} :
    ∀ (l : List Char) (a : Char) (t : List Char),
      l.dropWhile p = a :: t → p a = false := by
  intro l
  induction l with
  | nil => intro a t h; simp at h
  | cons c r ih =>
    intro a t h
    by_cases hc : p c
    · rw [List.dropWhile_cons, if_pos hc] at h
      exact ih a t h
    · rw [List.dropWhile_cons, if_neg hc] at h
      cases h
      simpa using hc

theorem dropWhile_idem {p : Char → Bool} (l : List Char) :
    (l.dropWhile p).dropWhile p = l.dropWhile p := by
  cases hd : l.dropWhile p with
  | nil => rfl
  | cons a t =>
    rw [List.dropWhile_cons, if_neg]
    simp [dropWhile_head_false l a t hd]

theorem dropWhile_eq_drop {p : Char → Bool} :
    ∀ l : List Char, l.dropWhile p = l.drop (l.takeWhile p).length := by
  intro l
  induction l with
  | nil => rfl
  | cons c r ih =>
    by_cases hc : p c
    · rw [List.dropWhile_cons, if_pos hc, List.takeWhile_cons, if_pos hc]
      simpa using ih
    · rw [List.dropWhile_cons, if_neg hc, List.takeWhile_cons, if_neg hc]
      simp

theorem stripRight_eq_take (y : List Char) : ∃ k, stripRight y = y.take k := by
  refine ⟨y.length - (y.reverse.takeWhile pyIsSpace).length, ?_⟩
  unfold stripRight
  rw [dropWhile_eq_drop, List.reverse_drop, List.reverse_reverse,
    List.length_reverse]

theorem take_head {y : List Char} {k : Nat} {a : Char} {t : List Char}
    (h : y.take k = a :: t) : ∃ t', y = a :: t' := by
  cases y with
  | nil => simp at h
  | cons c r =>
    cases k with
    | zero => simp at h
    | succ m =>
      rw [List.take_succ_cons] at h
      cases h
      exact ⟨r, rfl⟩

theorem pystrip_idem (l : List Char) : pystrip (pystrip l) = pystrip l := by
  have hsr : ∀ z : List Char, stripRight (stripRight z) = stripRight z := by
    intro z
    show (((z.reverse.dropWhile pyIsSpace).reverse).reverse.dropWhile pyIsSpace).reverse = _
    rw [List.reverse_reverse, dropWhile_idem]
    rfl
  have hleft : stripLeft (pystrip l) = pystrip l := by
    obtain ⟨k, hk⟩ := stripRight_eq_take (stripLeft l)
    show (pystrip l).dropWhile pyIsSpace = pystrip l
    cases hd : pystrip l with
    | nil => rfl
    | cons a t =>
      have hd' : (stripLeft l).take k = a :: t := by
        rw [← hk]; exact hd
      obtain ⟨t', ht'⟩ := take_head hd'
      have ha : pyIsSpace a = false := dropWhile_head_false l a t' ht'
      rw [List.dropWhile_cons, if_neg (by simp [ha])]
  show stripRight (stripLeft (pystrip l)) = pystrip l
  rw [hleft]
  show stripRight (stripRight (stripLeft l)) = pystrip l
  rw [hsr]
  rfl

/-! ### Termination and non-termination of the chunking loop -/

theorem chunkStep_progress {text : List Char} {cs ov : Nat}
    (h1 : ov < cs) (h2 : ov ≤ cs / 2 + 1) (s : Int) :
    s + 1 ≤ (chunkStep text cs s).2 - (ov : Int) := by
  simp only [chunkStep]
  split
  · split
    · dsimp only
      omega
    · dsimp only
      omega
  · dsimp only
    omega

theorem chunkLoop_isSome {text : List Char} {cs ov : Nat}
    (h1 : ov < cs) (h2 : ov ≤ cs / 2 + 1) :
    ∀ (fuel : Nat) (s : Int) (acc : List (List Char)),
      (text.length : Int) - s ≤ fuel →
      (chunkLoop text cs ov fuel s acc).isSome := by
  intro fuel
  induction fuel with
  | zero =>
    intro s acc h
    simp only [chunkLoop]
    rw [if_neg (by omega)]
    simp
  | succ m ih =>
    intro s acc h
    by_cases hs : s < (text.length : Int)
    · simp only [chunkLoop]
      rw [if_pos hs]
      apply ih
      have := @chunkStep_progress text cs ov h1 h2 s
      omega
    · simp only [chunkLoop]
      rw [if_neg hs]
      simp

theorem chunkStep_end_le (text : List Char) (cs : Nat) (s : Int) :
    (chunkStep text cs s).2 ≤ s + (cs : Int) := by
  simp only [chunkStep]
  split
  · split
    · dsimp only
      rcases rfind_bound (pyslice text s (s + (cs : Int))) ['.', ' '] with h | ⟨h0, hb⟩
      · omega
      · have := length_pyslice_le text s cs
        simp only [List.length_cons, List.length_nil] at hb
        omega
    · dsimp only; omega
  · dsimp only; omega

theorem chunkLoop_stuck_nonpos {text : List Char} {cs ov : Nat}
    (h1 : cs ≤ ov) (h2 : cs < text.length) :
    ∀ (fuel : Nat) (s : Int) (acc : List (List Char)),
      s ≤ 0 → chunkLoop text cs ov fuel s acc = none := by
  intro fuel
  induction fuel with
  | zero =>
    intro s acc hs
    simp only [chunkLoop]
    rw [if_pos (by omega)]
  | succ m ih =>
    intro s acc hs
    simp only [chunkLoop]
    rw [if_pos (by omega)]
    apply ih
    have := chunkStep_end_le text cs s
    omega

theorem chunkLoop_stripped (text : List Char) (cs ov : Nat) :
    ∀ (fuel : Nat) (s : Int) (acc cks : List (List Char)),
      (∀ c ∈ acc, pystrip c = c) → chunkLoop text cs ov fuel s acc = some cks →
      ∀ c ∈ cks, pystrip c = c := by
  intro fuel
  induction fuel with
  | zero =>
    intro s acc cks hacc h
    simp only [chunkLoop] at h
    split at h
    · exact absurd h (by simp)
    · cases h
      exact hacc
  | succ m ih =>
    intro s acc cks hacc h
    simp only [chunkLoop] at h
    split at h
    · refine ih _ _ _ ?_ h
      intro c hc
      rcases List.mem_append.mp hc with h1 | h1
      · exact hacc c h1
      · rw [List.mem_singleton.mp h1]
        exact pystrip_idem _
    · cases h
      exact hacc

theorem c1_loop_stuck : ∀ (fuel : Nat) (s : Int), (s = 0 ∨ s = -2 ∨ s = -1) →
    ∀ acc, chunkLoop ("abcdef. ghijklmnop".toList) 10 9 fuel s acc = none := by
  intro fuel
  induction fuel with
  | zero =>
    intro s hs acc
    rcases hs with h | h | h <;> subst h <;> rfl
  | succ m ih =>
    intro s hs acc
    rcases hs with h | h | h <;> subst h
    · have e0 : chunkLoop ("abcdef. ghijklmnop".toList) 10 9 (m + 1) 0 acc =
          chunkLoop ("abcdef. ghijklmnop".toList) 10 9 m (-2)
            (acc ++ ["abcdef.".toList]) := rfl
      rw [e0]
      exact ih (-2) (by norm_num) _
    · have e0 : chunkLoop ("abcdef. ghijklmnop".toList) 10 9 (m + 1) (-2) acc =
          chunkLoop ("abcdef. ghijklmnop".toList) 10 9 m (-1) (acc ++ [[]]) := rfl
      rw [e0]
      exact ih (-1) (by norm_num) _
    · have e0 : chunkLoop ("abcdef. ghijklmnop".toList) 10 9 (m + 1) (-1) acc =
          chunkLoop ("abcdef. ghijklmnop".toList) 10 9 m 0 (acc ++ [[]]) := rfl
      rw [e0]
      exact ih 0 (by norm_num) _

/-- C1 (amended): for every text, `chunk_text` terminates whenever
`overlap ≤ max_size / 2 + 1` (which covers the scenario max_size=4,
overlap=1 and the production configuration 400/50); the original claim's
range `overlap < max_size` is refuted by the companion counterexample. -/
theorem chunk_text_terminates_of_small_overlap (text : List Char) (cs ov : Nat)
    (h1 : ov < cs) (h2 : ov ≤ cs / 2 + 1) :
    ∃ cks, chunk_text text cs ov = some cks := by
  unfold chunk_text
  split
  · exact ⟨[text], rfl⟩
  · have := @chunkLoop_isSome text cs ov h1 h2 text.length 0 [] (by omega)
    exact Option.isSome_iff_exists.mp this

/-- Witness for C1's amended theorem on the spec scenario
text = "A. B. C.", max_size = 4, overlap = 1. -/
theorem chunk_text_terminates_of_small_overlap_witness :
    ∃ cks, chunk_text ("A. B. C.".toList) 4 1 = some cks :=
  chunk_text_terminates_of_small_overlap ("A. B. C.".toList) 4 1
    (by norm_num) (by norm_num)

/-- C1 counterexample: with max_size = 10 and overlap = 9 (inside the
claimed range `0 ≤ overlap < max_size`) the sliding-window loop cycles
through window starts 0, -2, -1 forever on this text, so `chunk_text` does
not terminate. -/
theorem chunk_text_nontermination_counterexample :
    9 < 10 ∧ chunk_text ("abcdef. ghijklmnop".toList) 10 9 = none ∧
      ¬ chunkTerminates ("abcdef. ghijklmnop".toList) 10 9 := by
  refine ⟨by norm_num, by decide, ?_⟩
  rintro ⟨fuel, hf⟩
  rw [c1_loop_stuck fuel 0 (Or.inl rfl) []] at hf
  simp at hf

/-- C4 (amended): for texts with `len(text) ≤ max_size`, `chunk_text`
returns exactly one chunk equal to the whole input text, not stripped of
whitespace. -/
theorem chunk_text_short_returns_whole (text : List Char) (cs ov : Nat)
    (h : text.length ≤ cs) : chunk_text text cs ov = some [text] := by
  unfold chunk_text
  rw [if_pos h]

/-- Witness for C4's amended theorem. -/
theorem chunk_text_short_returns_whole_witness :
    chunk_text ("hi".toList) 400 50 = some ["hi".toList] :=
  chunk_text_short_returns_whole ("hi".toList) 400 50 (by decide)

/-- C4 counterexample: the short-text path returns the text unstripped, so
for input " a " the single chunk is " a ", not the stripped "a". -/
theorem chunk_text_short_not_stripped_counterexample :
    chunk_text (" a ".toList) 400 50 = some [" a ".toList] ∧
      chunk_text (" a ".toList) 400 50 ≠ some [pystrip (" a ".toList)] := by
  constructor <;> decide

/-- C5 (amended): every chunk produced by the sliding-window path is
stripped of leading/trailing whitespace (it is a fixed point of `strip`);
however empty results are not dropped, and the short-text path does not
strip, as the companion counterexamples show. -/
theorem chunk_text_loop_chunks_stripped (text : List Char) (cs ov : Nat)
    (cks : List (List Char)) (h1 : cs < text.length)
    (h2 : chunk_text text cs ov = some cks) :
    ∀ c ∈ cks, pystrip c = c := by
  unfold chunk_text at h2
  rw [if_neg (by omega)] at h2
  exact chunkLoop_stripped text cs ov text.length 0 [] cks (by simp) h2

/-- Witness for C5's amended theorem. -/
theorem chunk_text_loop_chunks_stripped_witness :
    pystrip ("abcd".toList) = "abcd".toList :=
  chunk_text_loop_chunks_stripped ("abcde".toList) 4 1
    ["abcd".toList, "de".toList] (by decide) (by decide) ("abcd".toList)
    (by decide)

/-- C5 counterexample: a window consisting purely of whitespace strips to
the empty chunk, which is kept in the output rather than dropped. -/
theorem chunk_text_empty_chunk_counterexample :
    chunk_text ("ab      cd".toList) 4 1 =
      some ["ab".toList, [], "cd".toList, "d".toList] ∧
    ([] : List Char) ∈ ["ab".toList, ([] : List Char), "cd".toList, "d".toList] := by
  constructor <;> decide

/-- C6 (amended): the code performs no configuration-time validation at all.
With `overlap ≥ max_size` the call is not rejected: it returns the whole
text when `len(text) ≤ max_size`, and the sliding-window loop fails to
terminate (a runtime fault) when `len(text) > max_size`. -/
theorem overlap_ge_size_behavior (text : List Char) (cs ov : Nat)
    (h : cs ≤ ov) :
    (text.length ≤ cs → chunk_text text cs ov = some [text]) ∧
    (cs < text.length → ¬ chunkTerminates text cs ov) := by
  constructor
  · intro hl
    unfold chunk_text
    rw [if_pos hl]
  · intro hl hterm
    obtain ⟨fuel, hf⟩ := hterm
    rw [chunkLoop_stuck_nonpos h hl fuel 0 [] le_rfl] at hf
    simp at hf

/-- Witness for C6's amended theorem. -/
theorem overlap_ge_size_behavior_witness :
    chunk_text ("xy".toList) 3 5 = some ["xy".toList] ∧
      ¬ chunkTerminates ("abcdefg".toList) 3 5 :=
  ⟨(overlap_ge_size_behavior ("xy".toList) 3 5 (by norm_num)).1 (by decide),
   (overlap_ge_size_behavior ("abcdefg".toList) 3 5 (by norm_num)).2 (by decide)⟩

/-- C6 counterexample: a configuration with overlap = max_size is not
rejected (the call returns normally on a short text), and on a longer text
the configuration reaches the chunking loop, which never terminates. -/
theorem overlap_ge_size_not_rejected_counterexample :
    chunk_text ("ab".toList) 4 4 = some ["ab".toList] ∧
      ¬ chunkTerminates ("abcde".toList) 2 2 := by
  refine ⟨by decide, ?_⟩
  rintro ⟨fuel, hf⟩
  rw [chunkLoop_stuck_nonpos (by norm_num) (by decide) fuel 0 [] le_rfl] at hf
  simp at hf

theorem chunkStep_no_space {text : List Char}
    (hsp : ∀ c ∈ text, pyIsSpace c = false) (cs : Nat) {s : Int} (hs : 0 ≤ s) :
    chunkStep text cs s = ((text.drop s.toNat).take cs, s + (cs : Int)) := by
  have hchunk : pyslice text s (s + (cs : Int)) = (text.drop s.toNat).take cs :=
    pyslice_nonneg cs hs
  have hns : ' ' ∉ pyslice text s (s + (cs : Int)) := by
    intro hmem
    have := hsp ' ' (mem_pyslice hmem)
    simp [pyIsSpace] at this
  have hrf : rfind (pyslice text s (s + (cs : Int))) ['.', ' '] = -1 :=
    rfind_no_space hns
  simp only [chunkStep]
  split
  · rw [if_neg (by rw [hrf]; omega), hchunk]
  · rw [hchunk]

theorem chunkLoop_no_space {text : List Char} {cs ov : Nat}
    (hsp : ∀ c ∈ text, pyIsSpace c = false) (hov : ov < cs) :
    ∀ (fuel s : Nat) (acc : List (List Char)),
      text.length - s ≤ fuel →
      chunkLoop text cs ov fuel (s : Int) acc =
        some (acc ++ simpleChunks text cs (cs - ov) s) := by
  intro fuel
  induction fuel with
  | zero =>
    intro s acc h
    simp only [chunkLoop]
    rw [if_neg (by omega), simpleChunks, dif_neg (by omega)]
    simp
  | succ m ih =>
    intro s acc h
    by_cases hs : s < text.length
    · simp only [chunkLoop]
      rw [if_pos (by omega : (s : Int) < (text.length : Int))]
      rw [chunkStep_no_space hsp cs (Int.ofNat_nonneg s)]
      dsimp only
      have harg : (s : Int) + (cs : Int) - (ov : Int) = ((s + (cs - ov) : Nat) : Int) := by
        push_cast
        omega
      rw [harg, ih (s + (cs - ov)) _ (by omega)]
      have hstrip : pystrip ((text.drop (s : Int).toNat).take cs) =
          (text.drop (s : Int).toNat).take cs :=
        pystrip_eq_self fun c hc =>
          hsp c (((List.take_sublist _ _).trans (List.drop_sublist _ _)).mem hc)
      rw [hstrip]
      have hexp : simpleChunks text cs (cs - ov) s =
          ((text.drop s).take cs) :: simpleChunks text cs (cs - ov) (s + (cs - ov)) := by
        rw [simpleChunks, dif_pos ⟨by omega, hs⟩]
      rw [hexp]
      simp [Int.toNat_ofNat]
    · simp only [chunkLoop]
      rw [if_neg (by omega), simpleChunks, dif_neg (by omega)]
      simp

theorem share_adjacent {text : List Char} {cs ov s d : Nat}
    (hd : d = cs - ov) (hov : ov < cs) (hsd : s + d < text.length) :
    sharesAtLeast ((text.drop s).take cs) ((text.drop (s + d)).take cs)
      (min ov ((text.drop (s + d)).take cs).length) := by
  have hc1 : ((text.drop s).take cs).length = min cs (text.length - s) := by
    rw [List.length_take, List.length_drop]
  have hc2 : ((text.drop (s + d)).take cs).length =
      min cs (text.length - (s + d)) := by
    rw [List.length_take, List.length_drop]
  refine ⟨?_, ?_, ?_⟩
  · rw [hc1, hc2]
    omega
  · exact min_le_right _ _
  · have hdm : ((text.drop s).take cs).length -
        min ov ((text.drop (s + d)).take cs).length = d := by
      rw [hc1, hc2]
      omega
    rw [hdm, List.drop_take, List.drop_drop, List.take_take]
    have hcd : cs - d = ov := by omega
    have hmin : min (min ov ((text.drop (s + d)).take cs).length) cs =
        min ov ((text.drop (s + d)).take cs).length := by
      rw [hc2]
      omega
    rw [hcd, hmin]
    rcases Nat.lt_or_ge (min cs (text.length - (s + d))) ov with hlt | hge
    · have hm : min ov ((text.drop (s + d)).take cs).length =
          text.length - (s + d) := by
        rw [hc2]
        omega
      have e1 : (text.drop (s + d)).take ov = text.drop (s + d) :=
        List.take_of_length_le (by rw [List.length_drop]; omega)
      have e2 : (text.drop (s + d)).take (text.length - (s + d)) =
          text.drop (s + d) :=
        List.take_of_length_le (le_of_eq (List.length_drop _ _))
      rw [hm, e1, e2]
    · have hm : min ov ((text.drop (s + d)).take cs).length = ov := by
        rw [hc2]
        omega
      rw [hm]

theorem simpleChunks_chain {text : List Char} {cs ov : Nat} (hov : ov < cs) :
    ∀ (fuel s : Nat), text.length - s ≤ fuel →
      List.Chain' (fun c1 c2 => sharesAtLeast c1 c2 (min ov c2.length))
        (simpleChunks text cs (cs - ov) s) := by
  intro fuel
  induction fuel with
  | zero =>
    intro s h
    rw [simpleChunks, dif_neg (by omega)]
    exact List.chain'_nil
  | succ m ih =>
    intro s h
    rw [simpleChunks]
    by_cases hcond : 0 < cs - ov ∧ s < text.length
    · rw [dif_pos hcond]
      rw [List.chain'_cons']
      constructor
      · intro b hb
        rw [simpleChunks] at hb
        by_cases hcond2 : 0 < cs - ov ∧ s + (cs - ov) < text.length
        · rw [dif_pos hcond2] at hb
          simp only [List.head?_cons, Option.mem_def, Option.some.injEq] at hb
          rw [← hb]
          exact share_adjacent rfl hov hcond2.2
        · rw [dif_neg hcond2] at hb
          simp at hb
      · exact ih (s + (cs - ov)) (by omega)
    · rw [dif_neg hcond]
      exact List.chain'_nil

/-- C3 (amended): for a whitespace-free text longer than `max_size` with
`overlap < max_size`, every pair of chronologically adjacent chunks shares
at least `min overlap (length of the later chunk)` characters of text.  In
general the guarantee fails: whitespace stripping can reduce the shared
span below `overlap` (even to zero), and the final window can hold fewer
than `overlap` characters, as the companion counterexample shows. -/
theorem chunk_text_adjacent_overlap_no_space (text : List Char) (cs ov : Nat)
    (hov : ov < cs) (hlen : cs < text.length)
    (hsp : ∀ c ∈ text, pyIsSpace c = false) :
    ∃ cks, chunk_text text cs ov = some cks ∧
      List.Chain' (fun c1 c2 => sharesAtLeast c1 c2 (min ov c2.length)) cks := by
  refine ⟨simpleChunks text cs (cs - ov) 0, ?_, ?_⟩
  · unfold chunk_text
    rw [if_neg (by omega)]
    have := chunkLoop_no_space hsp hov text.length 0 [] (by omega)
    simpa using this
  · exact simpleChunks_chain hov text.length 0 (by omega)

/-- Witness for C3's amended theorem. -/
theorem chunk_text_adjacent_overlap_no_space_witness :
    ∃ cks, chunk_text ("abcdefgh".toList) 4 2 = some cks ∧
      List.Chain' (fun c1 c2 => sharesAtLeast c1 c2 (min 2 c2.length)) cks :=
  chunk_text_adjacent_overlap_no_space ("abcdefgh".toList) 4 2 (by norm_num)
    (by decide) (by decide)

/-- C3 counterexample: two refutations of the claimed `≥ overlap` sharing.
For "abcde" with max_size=4, overlap=2 the final chunk "e" shares only one
character with "cde"; for "abc defg" with overlap=1 the stripped chunks
"abc" and "def" share no text at all. -/
theorem chunk_text_adjacent_overlap_counterexample :
    (chunk_text ("abcde".toList) 4 2 =
        some ["abcd".toList, "cde".toList, "e".toList] ∧
      ¬ List.Chain' (fun c1 c2 => sharesAtLeast c1 c2 2)
        ["abcd".toList, "cde".toList, "e".toList]) ∧
    (chunk_text ("abc defg".toList) 4 1 =
        some ["abc".toList, "def".toList, "fg".toList] ∧
      ¬ List.Chain' (fun c1 c2 => sharesAtLeast c1 c2 1)
        ["abc".toList, "def".toList, "fg".toList]) := by
  refine ⟨⟨by decide, fun h => ?_⟩, ⟨by decide, fun h => ?_⟩⟩
  · have h2 := (List.chain'_cons.mp h).2
    exact absurd (List.chain'_cons.mp h2).1 (by decide)
  · exact absurd (List.chain'_cons.mp h).1 (by decide)

/-! ### Embedding normalization (C2) -/

theorem sumSq_nonneg (v : List ℝ) : 0 ≤ sumSq v := by
  induction v with
  | nil => simp [sumSq]
  | cons x t ih =>
    simp only [sumSq, List.map_cons, List.sum_cons]
    exact add_nonneg (sq_nonneg x) ih

theorem sumSq_map_div (v : List ℝ) (s : ℝ) :
    sumSq (v.map fun x => x / s) = sumSq v / s ^ 2 := by
  induction v with
  | nil => simp [sumSq]
  | cons x t ih =>
    simp only [sumSq, List.map_cons, List.sum_cons] at *
    rw [ih, div_pow, div_add_div_same]

/-- C2 (amended): the code divides by the exact Euclidean norm, with no
`ε` clamp.  Every vector of nonzero norm is mapped to an exact unit vector
(squared norm 1), and the all-zero vector is divided by its zero norm —
in the real-valued model (with the 0-division convention) it maps to
itself; in floating point this is an unguarded division producing NaNs. -/
theorem l2_normalize_unit_norm (v : List ℝ) (n : Nat) :
    (sumSq v ≠ 0 → sumSq (l2_normalize v) = 1) ∧
      l2_normalize (List.replicate n (0 : ℝ)) = List.replicate n 0 := by
  constructor
  · intro h
    unfold l2_normalize norm2
    rw [sumSq_map_div, Real.sq_sqrt (sumSq_nonneg v), div_self h]
  · unfold l2_normalize
    simp [List.map_replicate, zero_div]

/-- Witness for C2's amended theorem at the vector (3, 4). -/
theorem l2_normalize_unit_norm_witness :
    sumSq (l2_normalize [(3 : ℝ), 4]) = 1 ∧
      l2_normalize (List.replicate 2 (0 : ℝ)) = List.replicate 2 0 :=
  ⟨(l2_normalize_unit_norm [(3 : ℝ), 4] 2).1 (by norm_num [sumSq]),
   (l2_normalize_unit_norm [(3 : ℝ), 4] 2).2⟩

/-- C2 counterexample: there is no positive constant `ε` for which the
code's normalization equals `vector / max(‖vector‖₂, ε)`: for any `ε > 0`
they disagree on the one-element vector (ε/2). -/
theorem normalization_eps_clamp_counterexample :
    ¬ ∃ ε : ℝ, 0 < ε ∧ ∀ v : List ℝ, l2_normalize v = specNormalize ε v := by
  rintro ⟨ε, hε, h⟩
  have hv := h [ε / 2]
  have hs : sumSq [ε / 2] = (ε / 2) ^ 2 := by simp [sumSq]
  have hn : norm2 [ε / 2] = ε / 2 := by
    unfold norm2
    rw [hs, Real.sqrt_sq (by positivity)]
  have hne : ε / 2 ≠ 0 := by positivity
  unfold l2_normalize specNormalize at hv
  rw [hn] at hv
  simp only [List.map_cons, List.map_nil] at hv
  have h1 : ε / 2 / (ε / 2) = 1 := div_self hne
  have h2 : max (ε / 2) ε = ε := max_eq_right (by linarith)
  rw [h1, h2] at hv
  have h3 : ε / 2 / ε = 1 / 2 := by
    rw [show ε / 2 / ε = ε / ε / 2 by ring, div_self (ne_of_gt hε)]
  rw [h3] at hv
  simp only [List.cons.injEq] at hv
  have := hv.1
  norm_num at this

/-! ### Vector store writer (C7) -/

/-- C7 (amended): the write path performs no verification at all: it
succeeds exactly when there are at least as many embeddings as protocol
records (pairing them by index; a shortfall raises IndexError), with no
check of dimensional consistency or chunk-id uniqueness. -/
theorem writeCollection_no_validation (ps : List Protocol) (es : List (List ℚ)) :
    (writeCollection ps es).isSome ↔ ps.length ≤ es.length := by
  unfold writeCollection
  by_cases h : es.length < ps.length
  · rw [if_pos h]
    simp
    omega
  · rw [if_neg h]
    simp
    omega

/-- C7 counterexample: a batch with a duplicated chunk id and embeddings of
differing dimensionality is written without complaint. -/
theorem writeCollection_counterexample :
    writeCollection [sampleProtocol, sampleProtocol] [[(1 : ℚ)], [2, 3]] =
      some [(sampleProtocol, [(1 : ℚ)]), (sampleProtocol, [2, 3])] ∧
    ¬ ([sampleProtocol, sampleProtocol].map Protocol.id).Nodup ∧
    ¬ (∀ v1 ∈ [[(1 : ℚ)], [2, 3]], ∀ v2 ∈ [[(1 : ℚ)], [2, 3]],
        v1.length = v2.length) := by
  refine ⟨rfl, by decide, fun h => ?_⟩
  have := h [(1 : ℚ)] (by simp) [2, 3] (by simp)
  simp at this

/-! ### Source filter (C8) -/

theorem load_guidelines_foldl (rows : List Row) :
    ∀ acc : List Doc,
      rows.foldl
        (fun acc r =>
          if effSource r ∈ ALLOWED_SOURCES then
            if 100 < (effText r).length then acc ++ [mkDoc r] else acc
          else acc)
        acc =
      acc ++ (rows.filter fun r =>
        decide (effSource r ∈ ALLOWED_SOURCES) &&
          decide (100 < (effText r).length)).map mkDoc := by
  induction rows with
  | nil => intro acc; simp
  | cons r rest ih =>
    intro acc
    simp only [List.foldl_cons, List.filter_cons]
    by_cases h1 : effSource r ∈ ALLOWED_SOURCES
    · by_cases h2 : 100 < (effText r).length
      · rw [if_pos h1, if_pos h2, ih]
        simp [h1, h2]
      · rw [if_pos h1, if_neg h2, ih]
        simp [h1, h2]
    · rw [if_neg h1, ih]
      simp [h1]

/-- C8 (confirmed): `load_guidelines` admits a row exactly when its
lowercased source tag is in the allow-list and its effective text (primary
field with fallback) is longer than 100 characters; consequently no
admitted document carries the source tag "blog". -/
theorem load_guidelines_spec (rows : List Row) :
    load_guidelines rows =
      (rows.filter fun r =>
        decide (effSource r ∈ ALLOWED_SOURCES) &&
          decide (100 < (effText r).length)).map mkDoc ∧
    ∀ d ∈ load_guidelines rows, d.source ≠ "blog".toList := by
  have hfold := load_guidelines_foldl rows []
  have hmain : load_guidelines rows =
      (rows.filter fun r =>
        decide (effSource r ∈ ALLOWED_SOURCES) &&
          decide (100 < (effText r).length)).map mkDoc := by
    simpa using hfold
  refine ⟨hmain, ?_⟩
  intro d hd
  rw [hmain] at hd
  obtain ⟨r, hr, rfl⟩ := List.mem_map.mp hd
  have hmem := (List.mem_filter.mp hr).2
  simp only [Bool.and_eq_true, decide_eq_true_eq] at hmem
  intro hblog
  have hsrc : effSource r = "blog".toList := hblog
  have h1 : effSource r ∈ ALLOWED_SOURCES := hmem.1
  rw [hsrc] at h1
  exact absurd h1 (by decide)

set_option maxRecDepth 8000 in
/-- Witness for C8's theorem: a "WHO" row is admitted with lowercased
source, a "blog" row is excluded entirely. -/
theorem load_guidelines_spec_witness :
    (mkDoc whoRow).source ≠ "blog".toList ∧ load_guidelines [blogRow] = [] := by
  constructor
  · exact (load_guidelines_spec [whoRow]).2 (mkDoc whoRow) (by decide)
  · rw [(load_guidelines_spec [blogRow]).1]
    decide

/-! ### Fallback triage (C10) -/

theorem applyRules_nil (s : List Char) :
    applyRules [] s = ⟨"Primary Care".toList, 50 / 100⟩ := rfl

theorem applyRules_cons (p : List Char → Bool) (res : TriageResult)
    (rules : List ((List Char → Bool) × TriageResult)) (s : List Char) :
    applyRules ((p, res) :: rules) s =
      if p (s.map Char.toLower) then res else applyRules rules s := by
  unfold applyRules
  by_cases h : p (s.map Char.toLower)
  · rw [if_pos h, List.find?_cons_of_pos _ (by simpa using h)]
  · rw [if_neg h, List.find?_cons_of_neg _ (by simpa using h)]

theorem fallback_eq_applyRules (s : List Char) :
    run_fallback_triage s = applyRules fallbackRules s := by
  unfold run_fallback_triage fallbackRules
  rw [applyRules_cons, applyRules_cons, applyRules_cons, applyRules_cons,
    applyRules_cons, applyRules_cons, applyRules_cons, applyRules_cons,
    applyRules_cons, applyRules_cons, applyRules_nil]

theorem applyRules_mem (rules : List ((List Char → Bool) × TriageResult))
    (s : List Char) :
    applyRules rules s = ⟨"Primary Care".toList, 50 / 100⟩ ∨
      ∃ r ∈ rules, applyRules rules s = r.2 := by
  unfold applyRules
  cases hf : rules.find? (fun r => r.1 (s.map Char.toLower)) with
  | none => exact Or.inl rfl
  | some r => exact Or.inr ⟨r, List.mem_of_find?_eq_some hf, rfl⟩

theorem fallbackRules_range :
    ∀ r ∈ fallbackRules, r.2.specialty ∈ fallbackSpecialties ∧
      1 / 2 ≤ r.2.confidence ∧ r.2.confidence ≤ 17 / 20 := by
  intro r hr
  unfold fallbackRules at hr
  fin_cases hr <;> exact ⟨by decide, by norm_num, by norm_num⟩

theorem fallback_range (s : List Char) :
    (run_fallback_triage s).specialty ∈ fallbackSpecialties ∧
      1 / 2 ≤ (run_fallback_triage s).confidence ∧
      (run_fallback_triage s).confidence ≤ 17 / 20 := by
  rw [fallback_eq_applyRules]
  rcases applyRules_mem fallbackRules s with h | ⟨r, hr, h⟩
  · rw [h]
    exact ⟨by decide, by norm_num, by norm_num⟩
  · rw [h]
    exact fallbackRules_range r hr

/-- C10 (confirmed): `run_fallback_triage` is a total function equal to
first-match evaluation of its fixed, ordered keyword rule list; its result
specialty always lies in a fixed ten-element duplicate-free subset of
`SPECIALTIES`, its confidence lies in [0.50, 0.85], and an input matching
no rule maps to Primary Care with confidence 0.50. -/
theorem run_fallback_triage_spec (s : List Char) :
    run_fallback_triage s = applyRules fallbackRules s ∧
    (run_fallback_triage s).specialty ∈ fallbackSpecialties ∧
    fallbackSpecialties.length = 10 ∧ fallbackSpecialties.Nodup ∧
    (∀ x ∈ fallbackSpecialties, x ∈ SPECIALTIES) ∧
    1 / 2 ≤ (run_fallback_triage s).confidence ∧
    (run_fallback_triage s).confidence ≤ 17 / 20 ∧
    ((∀ r ∈ fallbackRules, r.1 (s.map Char.toLower) = false) →
      run_fallback_triage s = ⟨"Primary Care".toList, 50 / 100⟩) := by
  obtain ⟨hmem, hlo, hhi⟩ := fallback_range s
  refine ⟨fallback_eq_applyRules s, hmem, by decide, by decide, by decide,
    hlo, hhi, ?_⟩
  intro h
  rw [fallback_eq_applyRules s]
  unfold applyRules
  rw [List.find?_eq_none.mpr]
  intro r hr
  simp [h r hr]

/-- Witness for C10's theorem: "zzz" matches no keyword rule and falls
through to Primary Care at confidence 0.50. -/
theorem run_fallback_triage_spec_witness :
    run_fallback_triage ("zzz".toList) = ⟨"Primary Care".toList, 50 / 100⟩ :=
  (run_fallback_triage_spec ("zzz".toList)).2.2.2.2.2.2.2 (by decide)

/-! ### Chunk identifiers (C9) -/

theorem natDigitsAux_eq : ∀ (fuel n : Nat), n ≤ fuel →
    natDigitsAux fuel n = Nat.digits 10 n := by
  intro fuel
  induction fuel with
  | zero =>
    intro n hn
    have : n = 0 := by omega
    subst this
    simp [natDigitsAux, Nat.digits_zero]
  | succ m ih =>
    intro n hn
    by_cases h0 : n = 0
    · subst h0
      simp [natDigitsAux, Nat.digits_zero]
    · simp only [natDigitsAux, if_neg h0]
      have hlt : n / 10 < n := Nat.div_lt_self (by omega) (by norm_num)
      rw [ih (n / 10) (by omega), ← Nat.digits_def' (by norm_num : 1 < 10)
        (by omega : 0 < n)]

theorem natDigits_eq (n : Nat) : natDigits n = Nat.digits 10 n :=
  natDigitsAux_eq n n le_rfl

theorem digitChar_toNat : ∀ a : Nat, a < 10 → (digitChar a).toNat = 48 + a := by
  intro a ha
  interval_cases a <;> rfl

theorem digitChar_inj {a b : Nat} (ha : a < 10) (hb : b < 10)
    (h : digitChar a = digitChar b) : a = b := by
  have := congrArg Char.toNat h
  rw [digitChar_toNat a ha, digitChar_toNat b hb] at this
  omega

theorem map_digitChar_inj : ∀ (l1 l2 : List Nat), (∀ d ∈ l1, d < 10) →
    (∀ d ∈ l2, d < 10) → l1.map digitChar = l2.map digitChar → l1 = l2 := by
  intro l1
  induction l1 with
  | nil =>
    intro l2 _ _ h
    cases l2 with
    | nil => rfl
    | cons b bs => simp at h
  | cons a as ih =>
    intro l2 h1 h2 h
    cases l2 with
    | nil => simp at h
    | cons b bs =>
      simp only [List.map_cons, List.cons.injEq] at h
      have ha := h1 a (List.mem_cons_self a as)
      have hb := h2 b (List.mem_cons_self b bs)
      rw [digitChar_inj ha hb h.1,
        ih bs (fun d hd => h1 d (List.mem_cons_of_mem _ hd))
          (fun d hd => h2 d (List.mem_cons_of_mem _ hd)) h.2]

theorem natRepr_singleton_zero {n : Nat} (hn : n ≠ 0)
    (h : ((natDigits n).map digitChar).reverse = ['0']) : False := by
  rw [List.reverse_eq_iff] at h
  simp only [List.reverse_singleton] at h
  rw [natDigits_eq] at h
  cases hd : Nat.digits 10 n with
  | nil =>
    rw [hd] at h
    simp at h
  | cons d ds =>
    rw [hd] at h
    cases ds with
    | nil =>
      simp only [List.map_cons, List.map_nil, List.cons.injEq] at h
      have hdlt : d < 10 := Nat.digits_lt_base (by norm_num) (hd ▸ List.mem_cons_self d [])
      have hd0 : d = 0 := digitChar_inj hdlt (by norm_num) (by rw [h.1]; rfl)
      have := Nat.ofDigits_digits 10 n
      rw [hd, hd0] at this
      simp [Nat.ofDigits] at this
      exact hn this.symm
    | cons e es => simp at h

theorem natRepr_inj : ∀ m n : Nat, natRepr m = natRepr n → m = n := by
  intro m n h
  unfold natRepr at h
  by_cases hm : m = 0 <;> by_cases hn : n = 0
  · rw [hm, hn]
  · rw [if_pos hm, if_neg hn] at h
    exact absurd h.symm fun hh => natRepr_singleton_zero hn hh
  · rw [if_neg hm, if_pos hn] at h
    exact absurd h fun hh => natRepr_singleton_zero hm hh
  · rw [if_neg hm, if_neg hn] at h
    have h2 := List.reverse_injective h
    have h3 : natDigits m = natDigits n := by
      apply map_digitChar_inj
      · intro d hd
        rw [natDigits_eq] at hd
        exact Nat.digits_lt_base (by norm_num) hd
      · intro d hd
        rw [natDigits_eq] at hd
        exact Nat.digits_lt_base (by norm_num) hd
      · exact h2
    rw [natDigits_eq, natDigits_eq] at h3
    have := congrArg (Nat.ofDigits 10) h3
    rwa [Nat.ofDigits_digits, Nat.ofDigits_digits] at this

theorem takeWhile_marker : ∀ (s t : List Char), '_' ∉ s →
    (s ++ '_' :: t).takeWhile (fun c => c != '_') = s := by
  intro s
  induction s with
  | nil =>
    intro t _
    simp [List.takeWhile_cons]
  | cons a as ih =>
    intro t hs
    have ha : a ≠ '_' := fun hh => hs (hh ▸ List.mem_cons_self a as)
    simp only [List.cons_append, List.takeWhile_cons]
    rw [if_pos (by simp [ha]), ih t (fun hh => hs (List.mem_cons_of_mem _ hh))]

theorem dropWhile_marker : ∀ (s t : List Char), '_' ∉ s →
    (s ++ '_' :: t).dropWhile (fun c => c != '_') = '_' :: t := by
  intro s
  induction s with
  | nil =>
    intro t _
    simp [List.dropWhile_cons]
  | cons a as ih =>
    intro t hs
    have ha : a ≠ '_' := fun hh => hs (hh ▸ List.mem_cons_self a as)
    simp only [List.cons_append, List.dropWhile_cons]
    rw [if_pos (by simp [ha]), ih t (fun hh => hs (List.mem_cons_of_mem _ hh))]

theorem splitMarker (s1 t1 s2 t2 : List Char) (hs1 : '_' ∉ s1)
    (hs2 : '_' ∉ s2) (h : s1 ++ '_' :: t1 = s2 ++ '_' :: t2) :
    s1 = s2 ∧ t1 = t2 := by
  have h1 := congrArg (List.takeWhile (fun c => c != '_')) h
  rw [takeWhile_marker s1 t1 hs1, takeWhile_marker s2 t2 hs2] at h1
  have h2 := congrArg (List.dropWhile (fun c => c != '_')) h
  rw [dropWhile_marker s1 t1 hs1, dropWhile_marker s2 t2 hs2] at h2
  exact ⟨h1, (List.cons.injEq _ _ _ _).mp h2 |>.2⟩

theorem mkChunkId_shape (src id : List Char) (i : Nat) :
    mkChunkId src id i =
      src ++ '_' :: (id ++ '_' :: ("chunk_".toList ++ natRepr i)) := by
  unfold mkChunkId
  rw [List.append_assoc, List.append_assoc, List.cons_append]
  rfl

theorem mkChunkId_inj {s1 d1 s2 d2 : List Char} {i1 i2 : Nat}
    (hs1 : '_' ∉ s1) (hd1 : '_' ∉ d1) (hs2 : '_' ∉ s2) (hd2 : '_' ∉ d2)
    (h : mkChunkId s1 d1 i1 = mkChunkId s2 d2 i2) :
    s1 = s2 ∧ d1 = d2 ∧ i1 = i2 := by
  rw [mkChunkId_shape, mkChunkId_shape] at h
  obtain ⟨hs, h'⟩ := splitMarker _ _ _ _ hs1 hs2 h
  obtain ⟨hd, h''⟩ := splitMarker _ _ _ _ hd1 hd2 h'
  exact ⟨hs, hd, natRepr_inj i1 i2 (List.append_cancel_left h'')⟩

theorem mkChunkId_inj_idx {src id : List Char} {i j : Nat}
    (h : mkChunkId src id i = mkChunkId src id j) : i = j := by
  rw [mkChunkId_shape, mkChunkId_shape] at h
  have h1 := List.append_cancel_left h
  have h2 := ((List.cons.injEq _ _ _ _).mp h1).2
  have h3 := List.append_cancel_left h2
  have h4 := ((List.cons.injEq _ _ _ _).mp h3).2
  exact natRepr_inj i j (List.append_cancel_left h4)

theorem mem_perDoc_id {g : Doc} {p : Protocol} (hp : p ∈ perDoc g) :
    ∃ i, p.id = mkChunkId g.source g.id i := by
  unfold perDoc at hp
  cases hct : chunk_text g.text CHUNK_SIZE CHUNK_OVERLAP with
  | none =>
    rw [hct] at hp
    simp at hp
  | some cks =>
    rw [hct] at hp
    obtain ⟨ic, _, rfl⟩ := List.mem_map.mp hp
    exact ⟨ic.1, rfl⟩

theorem perDoc_ids_nodup (g : Doc) : ((perDoc g).map Protocol.id).Nodup := by
  unfold perDoc
  cases chunk_text g.text CHUNK_SIZE CHUNK_OVERLAP with
  | none => simp
  | some cks =>
    have he : ((cks.enum.map fun ic =>
        ({ id := mkChunkId g.source g.id ic.1, title := g.title,
           source := g.source, text := ic.2, url := g.url } : Protocol)).map
          Protocol.id) =
        (cks.enum.map Prod.fst).map (mkChunkId g.source g.id) := by
      rw [List.map_map, List.map_map]
      rfl
    rw [he, List.enum_map_fst]
    exact (List.nodup_range _).map fun i j hij => mkChunkId_inj_idx hij

theorem foldl_append_perDoc : ∀ (gs : List Doc) (acc : List Protocol),
    List.foldl (fun acc g => acc ++ perDoc g) acc gs =
      acc ++ gs.flatMap perDoc := by
  intro gs
  induction gs with
  | nil => intro acc; simp
  | cons g rest ih =>
    intro acc
    rw [List.foldl_cons, List.flatMap_cons, ih, List.append_assoc]

theorem mainProtocols_eq (gs : List Doc) :
    mainProtocols gs = gs.flatMap perDoc := by
  have hfun : (fun (acc : List Protocol) (g : Doc) =>
      match chunk_text g.text CHUNK_SIZE CHUNK_OVERLAP with
      | some cks =>
        acc ++ (cks.enum.map fun ic =>
          { id := mkChunkId g.source g.id ic.1
            title := g.title
            source := g.source
            text := ic.2
            url := g.url })
      | none => acc) = fun acc g => acc ++ perDoc g := by
    funext acc g
    unfold perDoc
    cases chunk_text g.text CHUNK_SIZE CHUNK_OVERLAP with
    | none => simp
    | some cks => rfl
  unfold mainProtocols
  rw [hfun]
  simpa using foldl_append_perDoc gs []

theorem flatMap_ids_nodup : ∀ gs : List Doc,
    (∀ g ∈ gs, '_' ∉ g.source ∧ '_' ∉ g.id) →
    gs.Pairwise (fun a b => a.source ≠ b.source ∨ a.id ≠ b.id) →
    ((gs.flatMap perDoc).map Protocol.id).Nodup := by
  intro gs
  induction gs with
  | nil =>
    intro _ _
    simp
  | cons g rest ih =>
    intro hu hp
    rw [List.flatMap_cons, List.map_append]
    rcases List.pairwise_cons.mp hp with ⟨hg, hrest⟩
    refine (perDoc_ids_nodup g).append
      (ih (fun g' hg' => hu g' (List.mem_cons_of_mem _ hg')) hrest) ?_
    intro x hx1 hx2
    obtain ⟨p, hp1, rfl⟩ := List.mem_map.mp hx1
    obtain ⟨i1, hi1⟩ := mem_perDoc_id hp1
    obtain ⟨q, hq1, hqx⟩ := List.mem_map.mp hx2
    obtain ⟨g2, hg2, hq2⟩ := List.mem_flatMap.mp hq1
    obtain ⟨i2, hi2⟩ := mem_perDoc_id hq2
    have heq : mkChunkId g.source g.id i1 = mkChunkId g2.source g2.id i2 := by
      rw [← hi1, ← hi2, hqx]
    have hu1 := hu g (List.mem_cons_self _ _)
    have hu2 := hu g2 (List.mem_cons_of_mem _ hg2)
    obtain ⟨hseq, hdeq, _⟩ := mkChunkId_inj hu1.1 hu1.2 hu2.1 hu2.2 heq
    rcases hg g2 hg2 with hne | hne
    · exact hne hseq
    · exact hne hdeq

/-- C9 (amended): chunk ids are deterministically derived from the parent
document's source tag, id and sequence index, and they are pairwise
distinct provided distinct admitted documents never share the same
(source, id) pair and sources/ids contain no underscore; the code does not
enforce that proviso, and two documents with equal ids collide (see the
companion counterexample).  Determinism across runs holds trivially since
the derivation is a pure function of (source, id, index). -/
theorem mainProtocols_chunk_ids_distinct (gs : List Doc)
    (hu : ∀ g ∈ gs, '_' ∉ g.source ∧ '_' ∉ g.id)
    (hp : gs.Pairwise fun a b => a.source ≠ b.source ∨ a.id ≠ b.id) :
    ((mainProtocols gs).map Protocol.id).Nodup := by
  rw [mainProtocols_eq]
  exact flatMap_ids_nodup gs hu hp

/-- Witness for C9's amended theorem: two documents with distinct ids give
a duplicate-free collection of chunk ids. -/
theorem mainProtocols_chunk_ids_distinct_witness :
    ((mainProtocols [docA, docB]).map Protocol.id).Nodup :=
  mainProtocols_chunk_ids_distinct [docA, docB] (by decide) (by decide)

/-- C9 counterexample: two admitted documents sharing the same (source, id)
pair produce colliding chunk ids in the persisted collection. -/
theorem mainProtocols_duplicate_id_counterexample :
    ¬ ((mainProtocols [docA, docA]).map Protocol.id).Nodup ∧
      (mainProtocols [docA, docA]).map Protocol.id =
        ["who_d1_chunk_0".toList, "who_d1_chunk_0".toList] := by
  constructor <;> decide

end KVec
